import Mathlib

/-!
Verification development for the SpeakPDF extraction-and-alignment pipeline.

The Python sources `backend/app/pdf_parser.py`, `backend/app/nlp.py` and
`backend/app/main.py` are shallowly embedded below.  Strings are modelled as
`List Char`, page coordinates as rationals, the PyMuPDF `rawdict` input as an
explicit tree of pages / blocks / lines / spans / characters, and the external
sentence-boundary capability (spaCy) as a function parameter.
-/

/-- Whitespace test modelling Python's `str.isspace` on the characters that can
realistically occur in extracted PDF text (ASCII whitespace, the C1 separator
controls, NEL and NBSP). -/
def pyIsSpace (c : Char) : Bool :=
  c = ' ' || c = '\t' || c = '\n' || c = '\r' || c = '\x0b' || c = '\x0c' ||
  c = '\x1c' || c = '\x1d' || c = '\x1e' || c = '\x1f' || c = '\x85' || c = '\xa0'

/-- Whitespace removal: models `"".join(s.split())` from `main.py` line 49. -/
def cleanOf (s : List Char) : List Char :=
  s.filter (fun c => !pyIsSpace c)

/-- Python `str.strip()`: remove leading and trailing whitespace. -/
def pyStrip (s : List Char) : List Char :=
  ((s.dropWhile pyIsSpace).reverse.dropWhile pyIsSpace).reverse

/-- Python slice `l[a:b]` for `0 ≤ a ≤ b` (clamping at the ends). -/
def pySlice (l : List α) (a b : Nat) : List α :=
  (l.drop a).take (b - a)

/-- Occurrence test: the pattern `pat` occurs in `text` at index `i`. -/
def occursAt (text pat : List Char) (i : Nat) : Bool :=
  decide (i + pat.length ≤ text.length ∧ pySlice text i (i + pat.length) = pat)

/-- Python `text.find(pat, start)` (`main.py` line 100): the least index
`i ≥ start` at which `pat` occurs in `text`, or `none`. -/
def findFrom (text pat : List Char) (start : Nat) : Option Nat :=
  (List.range (text.length + 1)).find? (fun i => decide (start ≤ i) && occursAt text pat i)

/-- The whitespace-skipping matching scan of `main.py` lines 64-88: one
recursive call per iteration of the `while` loop, indexed by a fuel bound on
the remaining number of iterations.  Arguments `t`, `sp`, `ms` are the loop
variables `temp_idx`, `s_ptr`, `match_start` (`none` encoding the sentinel
`-1`); the returned triple is their state when the loop exits.  The fuel is
semantically inert: `scanLoop` below supplies enough of it for the loop to
run to completion (theorem `scanLoopF_exit`), so exhausting it is unreachable
and the `0` case merely returns the in-flight state. -/
def scanLoopF (text clean : List Char) :
    Nat → Nat → Nat → Option Nat → Option Nat × Nat × Nat
  | 0, t, sp, ms => (ms, sp, t)
  | fuel + 1, t, sp, ms =>
    if _h1 : t < text.length then
      if _h2 : sp < clean.length then
        if pyIsSpace text[t] then
          -- whitespace in the source text is skipped
          scanLoopF text clean fuel (t + 1) sp ms
        else if text[t] = clean[sp] then
          -- match: record match_start if unset, advance both pointers
          scanLoopF text clean fuel (t + 1) (sp + 1) (some (ms.getD t))
        else
          match ms with
          | some m =>
            -- mismatch during a partial match: restart from match_start + 1
            scanLoopF text clean fuel (m + 1) 0 none
          | none =>
            -- mismatch before any match started: keep looking
            scanLoopF text clean fuel (t + 1) sp none
      else (ms, sp, t)
    else (ms, sp, t)

/-- Candidate lower bound of the scan: the position a mismatch restart would
resume from.  Only used to bound the iteration count of the scan. -/
def scanCand (ms : Option Nat) (t : Nat) : Nat :=
  match ms with
  | none => t
  | some m => min m t

/-- Strict upper bound on the number of iterations of the scan loop (proved in
`scanLoopF_exit`): the candidate position can increase at most `len + 1` times
and between increases the scan pointer moves right at most `len` times. -/
def scanMeasure (text : List Char) (ms : Option Nat) (t : Nat) : Nat :=
  (text.length - scanCand ms t) * (text.length + 1) + (text.length - t)

/-- Fuel sufficient for the whole scan, whatever the start state. -/
def scanFuel (text : List Char) : Nat :=
  (text.length + 1) * (text.length + 2)

/-- The scan of `main.py` lines 57-88 started on the loop state
`temp_idx = t`, `s_ptr = sp`, `match_start = ms`. -/
def scanLoop (text clean : List Char) (t sp : Nat) (ms : Option Nat) :
    Option Nat × Nat × Nat :=
  scanLoopF text clean (scanFuel text) t sp ms

/-- Flag of a coordinate record: a real glyph, a synthesized end-of-line space
(`is_space` in `pdf_parser.py`), or a synthesized paragraph newline
(`is_newline`). -/
inductive CharFlag where
  | plain : CharFlag
  | space : CharFlag
  | newline : CharFlag
deriving DecidableEq, Repr

/-- One entry of the coordinate array: the dict built in
`pdf_parser.py` lines 117-125 (and its synthesized variants). -/
structure CharRecord where
  page : Nat
  x : ℚ
  y : ℚ
  width : ℚ
  height : ℚ
  page_height : ℚ
  page_width : ℚ
  flag : CharFlag
deriving DecidableEq, Repr

/-- A sentence dict as produced by `nlp.py` and enriched by `main.py`
(`{"id": ..., "text": ..., "bboxes": ...}`). -/
structure PySentence where
  id : Nat
  text : List Char
  bboxes : List CharRecord
deriving DecidableEq, Repr

/-- The strict-scan outcome for one sentence: `main.py` lines 57-92.  The scan
runs from `cursor` with `s_ptr = 0` and `match_start = -1`; success requires
`match_start != -1 and s_ptr == len(clean)` and yields `(match_start,
match_end)` with `match_end = temp_idx`. -/
def strictMatch (text clean : List Char) (cursor : Nat) : Option (Nat × Nat) :=
  match scanLoop text clean cursor 0 none with
  | (some m, sp, t) => if sp = clean.length then some (m, t) else none
  | (none, _, _) => none

/-- The half-open coordinate-slice `[start, end)` assigned to one sentence, or
`none` when neither the strict scan (`main.py` lines 56-96) nor the literal
`find` fallback (lines 98-104) locates it.  An empty `clean` (line 51) also
yields `none`: the sentence is skipped before any search. -/
def matchRange (text : List Char) (cursor : Nat) (stext : List Char) :
    Option (Nat × Nat) :=
  let clean := cleanOf stext
  if clean = [] then none
  else
    match strictMatch text clean cursor with
    | some (m, e) => some (m, e)
    | none =>
      match findFrom text stext cursor with
      | some p => some (p, p + stext.length)
      | none => none

/-- Alignment of a single sentence (`main.py` lines 45-108): returns the
enriched sentence and the updated cursor.  On a match the bounding boxes are
`char_map[start:end]` and the cursor becomes `end`; otherwise the sentence
gets an empty box list and the cursor is unchanged. -/
def alignStep (text : List Char) (char_map : List CharRecord) (cursor : Nat)
    (s : PySentence) : PySentence × Nat :=
  match matchRange text cursor s.text with
  | some (a, b) => ({ s with bboxes := pySlice char_map a b }, b)
  | none => ({ s with bboxes := [] }, cursor)

/-- The aligner's `for s in sentences` loop, recording for each sentence the
enriched record together with the cursor value after processing it. -/
def alignTrace (text : List Char) (char_map : List CharRecord) :
    List PySentence → Nat → List (PySentence × Nat)
  | [], _ => []
  | s :: rest, cursor =>
    let p := alignStep text char_map cursor s
    p :: alignTrace text char_map rest p.2

/-- The sentence-to-bounding-box alignment performed by `upload_pdf`
(`main.py` lines 42-110): cursor starts at 0, sentences processed in order. -/
def upload_align (text : List Char) (char_map : List CharRecord)
    (sentences : List PySentence) : List PySentence :=
  (alignTrace text char_map sentences 0).map Prod.fst

/-- An axis-aligned rectangle in PyMuPDF's top-left-origin page coordinates
(`fitz.Rect`: `x0 ≤ x1`, `y0` the top edge, `y1` the bottom edge). -/
structure PRect where
  x0 : ℚ
  y0 : ℚ
  x1 : ℚ
  y1 : ℚ
deriving DecidableEq, Repr

/-- PyMuPDF point-in-rectangle containment (`block_center in t_bbox`,
`pdf_parser.py` lines 77-78): inclusive on all four edges. -/
def pointInRect (px py : ℚ) (r : PRect) : Bool :=
  decide (r.x0 ≤ px ∧ px ≤ r.x1 ∧ r.y0 ≤ py ∧ py ≤ r.y1)

/-- One entry of a span's `chars` list in the `rawdict` model: `c` is the
character (`none` models the empty string that line 104's `if not c: continue`
guards against) and the four numbers are its tight bounding box
`[x0, y0, x1, y1]` in top-left-origin coordinates. -/
structure RawChar where
  c : Option Char
  x0 : ℚ
  y0 : ℚ
  x1 : ℚ
  y1 : ℚ
deriving DecidableEq, Repr

/-- A `rawdict` span: optional font size, the left edge of the span's bbox
(the sort key on line 92), and its characters. -/
structure RawSpan where
  size : Option ℚ
  sx0 : ℚ
  chars : List RawChar
deriving DecidableEq, Repr

/-- A `rawdict` line: a list of spans. -/
structure RawLine where
  spans : List RawSpan
deriving DecidableEq, Repr

/-- A `rawdict` block: its type (`0` = text), bounding box and lines. -/
structure RawBlock where
  btype : Nat
  bbox : PRect
  lines : List RawLine
deriving DecidableEq, Repr

/-- One page of the PDF-model capability's output: dimensions, detected table
bounding boxes (`page.find_tables()`), image placement rectangles
(`page.get_image_rects`, already flattened into one list as lines 33-36 do),
and the `rawdict` text blocks. -/
structure RawPage where
  height : ℚ
  width : ℚ
  tables : List PRect
  images : List PRect
  blocks : List RawBlock
deriving DecidableEq, Repr

/-- The block filter of `pdf_parser.py` lines 71-79: a block is skipped
(`continue`) when its bottom edge is above the 5% header line, its top edge is
below the 95% footer line, or its bounding-box center point lies inside some
table or image rectangle. -/
def keepBlock (pg : RawPage) (b : RawBlock) : Bool :=
  let headerHeight := pg.height * (5 / 100 : ℚ)
  let footerY := pg.height * (95 / 100 : ℚ)
  let cx := (b.bbox.x0 + b.bbox.x1) / 2
  let cy := (b.bbox.y0 + b.bbox.y1) / 2
  !(decide (b.bbox.y1 < headerHeight) || decide (b.bbox.y0 > footerY) ||
    pg.tables.any (fun t => pointInRect cx cy t) ||
    pg.images.any (fun i => pointInRect cx cy i))

/-- Sort key comparison for blocks (`pdf_parser.py` line 66):
`(b["bbox"][1] // 10, b["bbox"][0])` compared lexicographically; `//` is floor
division. -/
def blockLE (b1 b2 : RawBlock) : Bool :=
  decide (⌊b1.bbox.y0 / 10⌋ < ⌊b2.bbox.y0 / 10⌋ ∨
    (⌊b1.bbox.y0 / 10⌋ = ⌊b2.bbox.y0 / 10⌋ ∧ b1.bbox.x0 ≤ b2.bbox.x0))

/-- Span sort (`pdf_parser.py` line 92): stable sort by the bbox left edge. -/
def sortSpans (spans : List RawSpan) : List RawSpan :=
  spans.mergeSort (fun s1 s2 => decide (s1.sx0 ≤ s2.sx0))

/-- The font sizes collected on `pdf_parser.py` lines 49-54: every truthy
`span["size"]` of every line of every (type-0) block of the page. -/
def pageFontSizes (blocks : List RawBlock) : List ℚ :=
  (blocks.map (fun b =>
    (b.lines.map (fun ln =>
      ln.spans.filterMap (fun sp =>
        match sp.size with
        | some v => if v ≠ 0 then some v else none
        | none => none))).flatten)).flatten

/-- The median font size of `pdf_parser.py` lines 56-59: `0` when no sizes
were collected, else the middle element of the sorted size list. -/
def medianSize (sizes : List ℚ) : ℚ :=
  if sizes = [] then 0
  else ((sizes.mergeSort (fun a b => decide (a ≤ b))).getD (sizes.length / 2) 0)

/-- The heading threshold of `pdf_parser.py` line 62:
`median_size * 1.1 if median_size > 0 else 100`. -/
def headingThreshold (median : ℚ) : ℚ :=
  if median > 0 then median * (11 / 10) else 100

/-- The heading flag accumulated over all spans of a block
(`pdf_parser.py` lines 85-97): true when some span's font size (default 0)
exceeds the threshold.  Dead computation: the emitted separator ignores it. -/
def blockIsHeading (threshold : ℚ) (b : RawBlock) : Bool :=
  b.lines.any (fun ln => ln.spans.any (fun sp => decide (sp.size.getD 0 > threshold)))

/-- The coordinate record built for one glyph (`pdf_parser.py` lines 106-125),
with the y coordinate converted to a bottom-left origin. -/
def charRecordOf (pageNum : Nat) (ph pw : ℚ) (ch : RawChar) : CharRecord :=
  let cHeight := ch.y1 - ch.y0
  { page := pageNum + 1
    x := ch.x0
    y := ph - ch.y0 - cHeight
    width := ch.x1 - ch.x0
    height := cHeight
    page_height := ph
    page_width := pw
    flag := CharFlag.plain }

/-- The inner character loop of `pdf_parser.py` lines 102-125: skip entries
with an empty character, else append the character and its record. -/
def spanChars (pageNum : Nat) (ph pw : ℚ) :
    List RawChar → List Char × List CharRecord
  | [] => ([], [])
  | ch :: rest =>
    let acc := spanChars pageNum ph pw rest
    match ch.c with
    | none => acc
    | some c => (c :: acc.1, charRecordOf pageNum ph pw ch :: acc.2)

/-- The per-line span loop (`pdf_parser.py` lines 87-125): concatenate the
characters of the sorted spans into `line_text` / `line_chars`. -/
def lineContent (pageNum : Nat) (ph pw : ℚ) (ln : RawLine) :
    List Char × List CharRecord :=
  (sortSpans ln.spans).foldl
    (fun acc sp =>
      let d := spanChars pageNum ph pw sp.chars
      (acc.1 ++ d.1, acc.2 ++ d.2))
    ([], [])

/-- Python `line_text.endswith((" ", "\n", "\t"))` (`pdf_parser.py` line
131). -/
def endsWithSNT (s : List Char) : Bool :=
  match s.getLast? with
  | some c => c = ' ' || c = '\n' || c = '\t'
  | none => false

/-- The synthesized end-of-line space record (`pdf_parser.py` lines 133-144):
placed immediately to the right of the last glyph, copying its page, y,
width (as an approximate space width), height and page dimensions. -/
def spaceRecordOf (last : CharRecord) : CharRecord :=
  { page := last.page
    x := last.x + last.width
    y := last.y
    width := last.width
    height := last.height
    page_height := last.page_height
    page_width := last.page_width
    flag := CharFlag.space }

/-- The per-line block mutation of `pdf_parser.py` lines 127-144: append a
non-empty line to the block accumulators and, when the line's text does not
end in `" "`, `"\n"` or `"\t"`, append one synthetic space character together
with its record (the record only when `line_chars` is non-empty, mirroring
line 133). -/
def appendLine (acc : List Char × List CharRecord)
    (lt : List Char) (lc : List CharRecord) : List Char × List CharRecord :=
  if lt = [] then acc
  else
    let bt := acc.1 ++ lt
    let bc := acc.2 ++ lc
    if endsWithSNT lt then (bt, bc)
    else
      (bt ++ [' '],
       match lc.getLast? with
       | some last => bc ++ [spaceRecordOf last]
       | none => bc)

/-- The whole line loop of one block: fold `appendLine` over the lines. -/
def blockContent (pageNum : Nat) (ph pw : ℚ) (b : RawBlock) :
    List Char × List CharRecord :=
  b.lines.foldl
    (fun acc ln =>
      let d := lineContent pageNum ph pw ln
      appendLine acc d.1 d.2)
    ([], [])

/-- One fuel-indexed pass of the trailing-whitespace trim loop of
`pdf_parser.py` lines 148-151: while the block text ends in whitespace drop
its last character, popping the matching record.  (`block_chars.pop()` runs
only when `block_chars` is non-empty; `List.dropLast` of `[]` is `[]`, which
is the same behavior.)  Each iteration shortens the text by one character, so
the initial text length — supplied by `trimBlock` — bounds the iteration
count and the fuel is semantically inert. -/
def trimBlockF : Nat → List Char → List CharRecord →
    List Char × List CharRecord
  | 0, bt, bc => (bt, bc)
  | fuel + 1, bt, bc =>
    match bt.getLast? with
    | some c =>
      if pyIsSpace c then trimBlockF fuel bt.dropLast bc.dropLast else (bt, bc)
    | none => (bt, bc)

/-- The trailing-whitespace trim loop of `pdf_parser.py` lines 148-151. -/
def trimBlock (bt : List Char) (bc : List CharRecord) :
    List Char × List CharRecord :=
  trimBlockF bt.length bt bc

/-- The synthesized paragraph-newline record (`pdf_parser.py` lines 167-179):
copies the last record's page, x, y, height and page dimensions, with width
zero. -/
def newlineRecordOf (last : CharRecord) : CharRecord :=
  { page := last.page
    x := last.x
    y := last.y
    width := 0
    height := last.height
    page_height := last.page_height
    page_width := last.page_width
    flag := CharFlag.newline }

/-- The separator chosen on `pdf_parser.py` lines 157-162: a double newline
for every block, whatever the heading flag says. -/
def separatorFor (_isHeading : Bool) : List Char :=
  ['\n', '\n']

/-- Emission of one surviving block (`pdf_parser.py` lines 146-179): if the
stripped block text is non-empty, trim trailing whitespace in both arrays,
append them to the document accumulators, then append the separator and two
synthesized-newline records (the latter only when `block_chars` is
non-empty). -/
def emitBlock (acc : List Char × List CharRecord) (isHeading : Bool)
    (bt : List Char) (bc : List CharRecord) : List Char × List CharRecord :=
  if pyStrip bt = [] then acc
  else
    let d := trimBlock bt bc
    (acc.1 ++ d.1 ++ separatorFor isHeading,
     acc.2 ++ d.2 ++
       (match d.2.getLast? with
        | some last => [newlineRecordOf last, newlineRecordOf last]
        | none => []))

/-- Processing of one page (`pdf_parser.py` lines 23-179): keep the type-0
blocks, compute the (dead) heading threshold, sort the blocks top-to-bottom /
left-to-right, filter headers, footers, tables and images, and emit each
surviving block. -/
def processPage (pageNum : Nat) (acc : List Char × List CharRecord)
    (pg : RawPage) : List Char × List CharRecord :=
  let textBlocks := pg.blocks.filter (fun b => b.btype = 0)
  let threshold := headingThreshold (medianSize (pageFontSizes textBlocks))
  let sorted := textBlocks.mergeSort blockLE
  sorted.foldl
    (fun acc b =>
      if keepBlock pg b then
        let d := blockContent pageNum pg.height pg.width b
        emitBlock acc (blockIsHeading threshold b) d.1 d.2
      else acc)
    acc

/-- `extract_text_with_coordinates` (`pdf_parser.py` lines 4-182) on the
PDF-model capability's output: the document text buffer and the coordinate
array, built page by page. -/
def extract_text_with_coordinates (doc : List RawPage) :
    List Char × List CharRecord :=
  (doc.enum.foldl (fun acc p => processPage p.1 acc p.2) ([], []))

/-- Python `text.split("\n\n")` specialized to the two-character paragraph
separator: greedy left-to-right scan for the leftmost occurrence, cutting and
continuing after it.  Adjacent separators produce empty chunks, as in
Python. -/
def splitNN : List Char → List (List Char)
  | [] => [[]]
  | '\n' :: '\n' :: rest => [] :: splitNN rest
  | c :: rest =>
    match splitNN rest with
    | [] => [[c]]
    | h :: t => (c :: h) :: t

/-- The inner spaCy loop of `nlp.py` lines 21-25 over one chunk's sentence
strings: strip each, skip the empty ones, and number the kept ones with the
running global counter. -/
def numberSents (acc : List PySentence × Nat) (sents : List (List Char)) :
    List PySentence × Nat :=
  sents.foldl
    (fun acc sent =>
      let s := pyStrip sent
      if s = [] then acc
      else (acc.1 ++ [{ id := acc.2, text := s, bboxes := [] }], acc.2 + 1))
    acc

/-- `split_into_sentences` (`nlp.py` lines 6-27) with the external
sentence-boundary capability (spaCy's `doc.sents`) passed as `sbd`: split the
text on `"\n\n"`, strip each chunk, skip empty chunks, segment each surviving
chunk with `sbd`, and assign sequential global ids. -/
def split_into_sentences (sbd : List Char → List (List Char))
    (text : List Char) : List PySentence :=
  ((splitNN text).foldl
    (fun acc chunk =>
      let chunk := pyStrip chunk
      if chunk = [] then acc
      else numberSents acc (sbd chunk))
    ([], 0)).1

/-- Loop invariant of the whitespace-skipping scan, relative to the start
cursor.  With no partial match the needle pointer is zero and the scan is at
or past the cursor.  With a partial match started at `m`: `m` is at or past
the cursor and strictly before the scan position, at least one needle
character matched, the non-whitespace characters passed over since `m` are
exactly the matched needle prefix, position `m` holds a non-whitespace
character, and, should the needle be exhausted, the scan stopped right after
a non-whitespace (matched) character. -/
def scanInv (text clean : List Char) (cursor : Nat) :
    Nat → Nat → Option Nat → Prop
  | t, sp, none => sp = 0 ∧ cursor ≤ t
  | t, sp, some m =>
    cursor ≤ m ∧ m < t ∧ 1 ≤ sp ∧ sp ≤ clean.length ∧ m < text.length ∧
    pyIsSpace (text.getD m ' ') = false ∧
    (pySlice text m t).filter (fun c => !pyIsSpace c) = clean.take sp ∧
    (sp = clean.length →
      t ≤ text.length ∧ pyIsSpace (text.getD (t - 1) ' ') = false)

/-- What a successful scan guarantees about the state it returns. -/
def scanPost (text clean : List Char) (cursor : Nat)
    (r : Option Nat × Nat × Nat) : Prop :=
  ∀ m, r.1 = some m → r.2.1 = clean.length →
    cursor ≤ m ∧ m < r.2.2 ∧ r.2.2 ≤ text.length ∧ m < text.length ∧
    pyIsSpace (text.getD m ' ') = false ∧
    pyIsSpace (text.getD (r.2.2 - 1) ' ') = false ∧
    (pySlice text m r.2.2).filter (fun c => !pyIsSpace c) = clean

/-- Concrete glyph record used by witnesses. -/
def wRecA : CharRecord :=
  ⟨1, 0, 0, 1, 1, 100, 100, CharFlag.plain⟩

/-- Second concrete glyph record used by witnesses. -/
def wRecB : CharRecord :=
  ⟨1, 1, 0, 1, 1, 100, 100, CharFlag.plain⟩

/-- Axis-aligned rectangle overlap (closed boxes sharing at least one point);
used only to state that overlap is not what the block filter tests. -/
def rectOverlap (r s : PRect) : Bool :=
  decide (r.x0 ≤ s.x1 ∧ s.x0 ≤ r.x1 ∧ r.y0 ≤ s.y1 ∧ s.y0 ≤ r.y1)

/-- Concrete page used by the C9 witness: one table in the top-left corner. -/
def wPage : RawPage :=
  ⟨100, 100, [⟨0, 0, 10, 10⟩], [], []⟩

/-- Concrete block used by the C9 witness: overlaps the table's corner but has
its center well outside it. -/
def wBlock : RawBlock :=
  ⟨0, ⟨8, 8, 30, 30⟩, []⟩

/-- Sequential numbering of a list of sentence texts starting at id `n`:
the declarative form of the segmenter's global counter. -/
def numberFrom (n : Nat) : List (List Char) → List PySentence
  | [] => []
  | s :: rest => ⟨n, s, []⟩ :: numberFrom (n + 1) rest

/-- The sentence texts the segmenter keeps, declaratively: strip each chunk,
discard empty chunks, segment each surviving chunk with the external
capability, strip each sentence and discard the empty ones. -/
def sentsOfChunks (sbd : List Char → List (List Char))
    (chunks : List (List Char)) : List (List Char) :=
  ((chunks.map pyStrip).filter (fun c => decide (c ≠ []))).flatMap
    (fun ch => ((sbd ch).map pyStrip).filter (fun s => decide (s ≠ [])))

theorem pySlice_self (l : List α) (a : Nat) : pySlice l a a = [] := by
  simp [pySlice]

theorem pySlice_succ_right {l : List α} {a t : Nat} (hat : a ≤ t)
    (ht : t < l.length) : pySlice l a (t + 1) = pySlice l a t ++ [l[t]] := by
  unfold pySlice
  have h1 : t + 1 - a = (t - a) + 1 := by omega
  rw [h1, List.take_succ]
  have h2 : (l.drop a)[t - a]? = l[t]? := by
    rw [List.getElem?_drop]
    congr 1
    omega
  rw [h2, List.getElem?_eq_getElem ht]
  rfl

theorem pySlice_ne_nil {l : List α} {a b : Nat} (hab : a < b)
    (hb : b ≤ l.length) : pySlice l a b ≠ [] := by
  unfold pySlice
  intro hnil
  rcases List.eq_nil_or_concat ((l.drop a).take (b - a)) with h | ⟨_, _, _⟩
  · have hlen := congrArg List.length h
    simp [List.length_take, List.length_drop] at hlen
    omega
  · simp_all

theorem scanInv_exitPost (text clean : List Char) (cursor t sp : Nat)
    (ms : Option Nat) (hInv : scanInv text clean cursor t sp ms) :
    scanPost text clean cursor (ms, sp, t) := by
  intro m hm hsp
  cases ms with
  | none => simp at hm
  | some m' =>
    obtain rfl : m' = m := by simpa using hm
    simp only [scanInv] at hInv
    obtain ⟨hc, hmt, _, _, hmlen, hns, hfil, hfin⟩ := hInv
    simp only at hsp
    obtain ⟨htlen, hlast⟩ := hfin hsp
    refine ⟨hc, hmt, htlen, hmlen, hns, hlast, ?_⟩
    rw [hfil, hsp, List.take_length]

theorem scanInv_ws (text clean : List Char) (cursor t sp : Nat)
    (ms : Option Nat) (h1 : t < text.length) (h2 : sp < clean.length)
    (hws : pyIsSpace text[t] = true)
    (hInv : scanInv text clean cursor t sp ms) :
    scanInv text clean cursor (t + 1) sp ms := by
  cases ms with
  | none =>
    simp only [scanInv] at hInv ⊢
    omega
  | some m =>
    simp only [scanInv] at hInv ⊢
    obtain ⟨hc, hmt, hsp1, hsp2, hmlen, hns, hfil, _⟩ := hInv
    refine ⟨hc, by omega, hsp1, hsp2, hmlen, hns, ?_, by omega⟩
    rw [pySlice_succ_right (by omega) h1, List.filter_append, hfil]
    simp [hws]

theorem scanInv_match (text clean : List Char) (cursor t sp : Nat)
    (ms : Option Nat) (h1 : t < text.length) (h2 : sp < clean.length)
    (hws : pyIsSpace text[t] = false) (heq : text[t] = clean[sp])
    (hInv : scanInv text clean cursor t sp ms) :
    scanInv text clean cursor (t + 1) (sp + 1) (some (ms.getD t)) := by
  have hgd : pyIsSpace (text.getD (t + 1 - 1) ' ') = false := by
    simpa [List.getD, List.getElem?_eq_getElem h1] using hws
  cases ms with
  | none =>
    obtain ⟨hsp0, hct⟩ := hInv
    subst hsp0
    simp only [scanInv, Option.getD]
    refine ⟨hct, by omega, by omega, by omega, h1, ?_, ?_, fun _ => ⟨by omega, hgd⟩⟩
    · simpa [List.getD, List.getElem?_eq_getElem h1] using hws
    · rw [pySlice_succ_right (le_refl t) h1, pySlice_self]
      simp only [List.nil_append, List.filter_cons, List.filter_nil, hws,
        Bool.not_false, if_pos]
      rw [List.take_succ, List.take_zero, List.getElem?_eq_getElem h2, heq]
      rfl
  | some m =>
    obtain ⟨hc, hmt, hsp1, _, hmlen, hns, hfil, _⟩ := hInv
    simp only [scanInv, Option.getD]
    refine ⟨hc, by omega, by omega, by omega, hmlen, hns, ?_, fun _ => ⟨by omega, hgd⟩⟩
    rw [pySlice_succ_right (by omega) h1, List.filter_append, hfil]
    have hf1 : List.filter (fun c => !pyIsSpace c) [text[t]] = [text[t]] := by
      simp [hws]
    rw [hf1, heq, List.take_succ, List.getElem?_eq_getElem h2]
    rfl

theorem scanInv_restart (text clean : List Char) (cursor t sp m : Nat)
    (hInv : scanInv text clean cursor t sp (some m)) :
    scanInv text clean cursor (m + 1) 0 none := by
  simp only [scanInv] at hInv ⊢
  exact ⟨trivial, by omega⟩

theorem scanInv_advance (text clean : List Char) (cursor t sp : Nat)
    (hInv : scanInv text clean cursor t sp none) :
    scanInv text clean cursor (t + 1) sp none := by
  simp only [scanInv] at hInv ⊢
  omega

theorem scanLoopF_master (text clean : List Char) (cursor : Nat) :
    ∀ fuel t sp ms, scanInv text clean cursor t sp ms →
      scanPost text clean cursor (scanLoopF text clean fuel t sp ms) := by
  intro fuel
  induction fuel with
  | zero =>
    intro t sp ms hInv
    exact scanInv_exitPost text clean cursor t sp ms hInv
  | succ fuel ih =>
    intro t sp ms hInv
    cases ms with
    | some m =>
      rw [scanLoopF.eq_2]
      by_cases h1 : t < text.length
      · rw [dif_pos h1]
        by_cases h2 : sp < clean.length
        · rw [dif_pos h2]
          by_cases hws : pyIsSpace text[t]
          · rw [if_pos hws]
            exact ih _ _ _ (scanInv_ws text clean cursor t sp _ h1 h2 hws hInv)
          · rw [if_neg hws]
            by_cases heq : text[t] = clean[sp]
            · rw [if_pos heq]
              exact ih _ _ _ (scanInv_match text clean cursor t sp _ h1 h2
                (Bool.not_eq_true _ ▸ eq_false_of_ne_true hws) heq hInv)
            · rw [if_neg heq]
              exact ih _ _ _ (scanInv_restart text clean cursor t sp m hInv)
        · rw [dif_neg h2]
          exact scanInv_exitPost text clean cursor t sp _ hInv
      · rw [dif_neg h1]
        exact scanInv_exitPost text clean cursor t sp _ hInv
    | none =>
      rw [scanLoopF.eq_3]
      by_cases h1 : t < text.length
      · rw [dif_pos h1]
        by_cases h2 : sp < clean.length
        · rw [dif_pos h2]
          by_cases hws : pyIsSpace text[t]
          · rw [if_pos hws]
            exact ih _ _ _ (scanInv_ws text clean cursor t sp _ h1 h2 hws hInv)
          · rw [if_neg hws]
            by_cases heq : text[t] = clean[sp]
            · rw [if_pos heq]
              exact ih _ _ _ (scanInv_match text clean cursor t sp _ h1 h2
                (Bool.not_eq_true _ ▸ eq_false_of_ne_true hws) heq hInv)
            · rw [if_neg heq]
              exact ih _ _ _ (scanInv_advance text clean cursor t sp hInv)
        · rw [dif_neg h2]
          exact scanInv_exitPost text clean cursor t sp _ hInv
      · rw [dif_neg h1]
        exact scanInv_exitPost text clean cursor t sp _ hInv

theorem scanLoop_master (text clean : List Char) (cursor : Nat) :
    scanPost text clean cursor (scanLoop text clean cursor 0 none) :=
  scanLoopF_master text clean cursor (scanFuel text) cursor 0 none
    ⟨rfl, le_refl cursor⟩

theorem lexNat_lt {K a1 b1 a2 b2 : Nat} (hb : b1 < K)
    (h : a1 < a2 ∨ (a1 = a2 ∧ b1 < b2)) : a1 * K + b1 < a2 * K + b2 := by
  rcases h with h | ⟨rfl, h2⟩
  · have hK : (a1 + 1) * K ≤ a2 * K := Nat.mul_le_mul_right K h
    calc a1 * K + b1 < a1 * K + K := by omega
      _ = (a1 + 1) * K := by ring
      _ ≤ a2 * K := hK
      _ ≤ a2 * K + b2 := Nat.le_add_right _ _
  · omega

theorem scanMeasure_step_lt (text : List Char) (ms : Option Nat) {t : Nat}
    (h1 : t < text.length) :
    scanMeasure text ms (t + 1) < scanMeasure text ms t := by
  rcases ms with _ | m <;>
    · simp only [scanMeasure, scanCand]
      exact lexNat_lt (by omega) (by omega)

theorem scanMeasure_matchstep_lt (text : List Char) (ms : Option Nat) {t : Nat}
    (h1 : t < text.length) :
    scanMeasure text (some (ms.getD t)) (t + 1) < scanMeasure text ms t := by
  rcases ms with _ | m <;>
    · simp only [scanMeasure, scanCand, Option.getD]
      exact lexNat_lt (by omega) (by omega)

theorem scanMeasure_restart_lt (text : List Char) {t m : Nat}
    (h1 : t < text.length) :
    scanMeasure text none (m + 1) < scanMeasure text (some m) t := by
  simp only [scanMeasure, scanCand]
  exact lexNat_lt (by omega) (by omega)

theorem scanMeasure_succ_lt (text : List Char) (ms : Option Nat) (t : Nat) :
    scanMeasure text ms t + 1 < scanFuel text := by
  simp only [scanMeasure, scanFuel]
  have h1 : text.length - scanCand ms t ≤ text.length := Nat.sub_le _ _
  have h2 : text.length - t ≤ text.length := Nat.sub_le _ _
  have h3 : (text.length - scanCand ms t) * (text.length + 1) ≤
      text.length * (text.length + 1) := Nat.mul_le_mul_right _ h1
  nlinarith

theorem scanLoopF_exit (text clean : List Char) :
    ∀ fuel t sp ms, scanMeasure text ms t < fuel →
      ¬((scanLoopF text clean fuel t sp ms).2.2 < text.length ∧
        (scanLoopF text clean fuel t sp ms).2.1 < clean.length) := by
  intro fuel
  induction fuel with
  | zero => intro t sp ms h; omega
  | succ fuel ih =>
    intro t sp ms hm
    cases ms with
    | some m =>
      rw [scanLoopF.eq_2]
      by_cases h1 : t < text.length
      · rw [dif_pos h1]
        by_cases h2 : sp < clean.length
        · rw [dif_pos h2]
          by_cases hws : pyIsSpace text[t]
          · rw [if_pos hws]
            exact ih _ _ _ (by
              have := scanMeasure_step_lt text (some m) h1; omega)
          · rw [if_neg hws]
            by_cases heq : text[t] = clean[sp]
            · rw [if_pos heq]
              exact ih _ _ _ (by
                have := scanMeasure_matchstep_lt text (some m) h1; omega)
            · rw [if_neg heq]
              exact ih _ _ _ (by
                have := scanMeasure_restart_lt text (m := m) h1; omega)
        · rw [dif_neg h2]
          exact fun hc => h2 hc.2
      · rw [dif_neg h1]
        exact fun hc => h1 hc.1
    | none =>
      rw [scanLoopF.eq_3]
      by_cases h1 : t < text.length
      · rw [dif_pos h1]
        by_cases h2 : sp < clean.length
        · rw [dif_pos h2]
          by_cases hws : pyIsSpace text[t]
          · rw [if_pos hws]
            exact ih _ _ _ (by
              have := scanMeasure_step_lt text none h1; omega)
          · rw [if_neg hws]
            by_cases heq : text[t] = clean[sp]
            · rw [if_pos heq]
              exact ih _ _ _ (by
                have := scanMeasure_matchstep_lt text none h1; omega)
            · rw [if_neg heq]
              exact ih _ _ _ (by
                have := scanMeasure_step_lt text none h1
                simp only [scanMeasure, scanCand] at *
                omega)
        · rw [dif_neg h2]
          exact fun hc => h2 hc.2
      · rw [dif_neg h1]
        exact fun hc => h1 hc.1

theorem scanLoop_exit (text clean : List Char) (t sp : Nat) (ms : Option Nat) :
    ¬((scanLoop text clean t sp ms).2.2 < text.length ∧
      (scanLoop text clean t sp ms).2.1 < clean.length) :=
  scanLoopF_exit text clean (scanFuel text) t sp ms
    (by have := scanMeasure_succ_lt text ms t; omega)

theorem scanLoopF_sp_le (text clean : List Char) :
    ∀ fuel t sp ms, sp ≤ clean.length →
      (scanLoopF text clean fuel t sp ms).2.1 ≤ clean.length := by
  intro fuel
  induction fuel with
  | zero => intro t sp ms h; exact h
  | succ fuel ih =>
    intro t sp ms hsp
    cases ms with
    | some m =>
      rw [scanLoopF.eq_2]
      by_cases h1 : t < text.length
      · rw [dif_pos h1]
        by_cases h2 : sp < clean.length
        · rw [dif_pos h2]
          by_cases hws : pyIsSpace text[t]
          · rw [if_pos hws]; exact ih _ _ _ hsp
          · rw [if_neg hws]
            by_cases heq : text[t] = clean[sp]
            · rw [if_pos heq]; exact ih _ _ _ (by omega)
            · rw [if_neg heq]; exact ih _ _ _ (by omega)
        · rw [dif_neg h2]; exact hsp
      · rw [dif_neg h1]; exact hsp
    | none =>
      rw [scanLoopF.eq_3]
      by_cases h1 : t < text.length
      · rw [dif_pos h1]
        by_cases h2 : sp < clean.length
        · rw [dif_pos h2]
          by_cases hws : pyIsSpace text[t]
          · rw [if_pos hws]; exact ih _ _ _ hsp
          · rw [if_neg hws]
            by_cases heq : text[t] = clean[sp]
            · rw [if_pos heq]; exact ih _ _ _ (by omega)
            · rw [if_neg heq]; exact ih _ _ _ hsp
        · rw [dif_neg h2]; exact hsp
      · rw [dif_neg h1]; exact hsp

theorem scanLoopF_irrel (text clean : List Char) :
    ∀ f1 f2 t sp ms, scanMeasure text ms t < f1 → scanMeasure text ms t < f2 →
      scanLoopF text clean f1 t sp ms = scanLoopF text clean f2 t sp ms := by
  intro f1
  induction f1 with
  | zero => intro f2 t sp ms h; omega
  | succ f1 ih =>
    intro f2 t sp ms hm1 hm2
    cases f2 with
    | zero => omega
    | succ f2 =>
      cases ms with
      | some m =>
        rw [scanLoopF.eq_2, scanLoopF.eq_2]
        by_cases h1 : t < text.length
        · rw [dif_pos h1, dif_pos h1]
          by_cases h2 : sp < clean.length
          · rw [dif_pos h2, dif_pos h2]
            by_cases hws : pyIsSpace text[t]
            · rw [if_pos hws, if_pos hws]
              exact ih _ _ _ _
                (by have := scanMeasure_step_lt text (some m) h1; omega)
                (by have := scanMeasure_step_lt text (some m) h1; omega)
            · rw [if_neg hws, if_neg hws]
              by_cases heq : text[t] = clean[sp]
              · rw [if_pos heq, if_pos heq]
                exact ih _ _ _ _
                  (by have := scanMeasure_matchstep_lt text (some m) h1; omega)
                  (by have := scanMeasure_matchstep_lt text (some m) h1; omega)
              · rw [if_neg heq, if_neg heq]
                exact ih _ _ _ _
                  (by have := scanMeasure_restart_lt text (m := m) h1; omega)
                  (by have := scanMeasure_restart_lt text (m := m) h1; omega)
          · rw [dif_neg h2, dif_neg h2]
        · rw [dif_neg h1, dif_neg h1]
      | none =>
        rw [scanLoopF.eq_3, scanLoopF.eq_3]
        by_cases h1 : t < text.length
        · rw [dif_pos h1, dif_pos h1]
          by_cases h2 : sp < clean.length
          · rw [dif_pos h2, dif_pos h2]
            by_cases hws : pyIsSpace text[t]
            · rw [if_pos hws, if_pos hws]
              exact ih _ _ _ _
                (by have := scanMeasure_step_lt text none h1; omega)
                (by have := scanMeasure_step_lt text none h1; omega)
            · rw [if_neg hws, if_neg hws]
              by_cases heq : text[t] = clean[sp]
              · rw [if_pos heq, if_pos heq]
                exact ih _ _ _ _
                  (by have := scanMeasure_matchstep_lt text none h1; omega)
                  (by have := scanMeasure_matchstep_lt text none h1; omega)
              · rw [if_neg heq, if_neg heq]
                have hs := scanMeasure_step_lt text none h1
                exact ih _ _ _ _ (by omega) (by omega)
          · rw [dif_neg h2, dif_neg h2]
        · rw [dif_neg h1, dif_neg h1]

theorem findFrom_sound {text pat : List Char} {start p : Nat}
    (h : findFrom text pat start = some p) :
    start ≤ p ∧ p + pat.length ≤ text.length ∧
    pySlice text p (p + pat.length) = pat := by
  unfold findFrom at h
  have hp := List.find?_some h
  simp only [occursAt, Bool.and_eq_true, decide_eq_true_eq] at hp
  exact ⟨hp.1, hp.2.1, hp.2.2⟩

theorem strictMatch_sound {text clean : List Char} {cursor m e : Nat}
    (h : strictMatch text clean cursor = some (m, e)) :
    cursor ≤ m ∧ m < e ∧ e ≤ text.length ∧ m < text.length ∧
    pyIsSpace (text.getD m ' ') = false ∧
    pyIsSpace (text.getD (e - 1) ' ') = false ∧
    (pySlice text m e).filter (fun c => !pyIsSpace c) = clean := by
  unfold strictMatch at h
  have post := scanLoop_master text clean cursor
  rcases hr : scanLoop text clean cursor 0 none with ⟨ms, sp, t⟩
  rw [hr] at h post
  cases ms with
  | none => simp at h
  | some m0 =>
    have h2 : (if sp = clean.length then some (m0, t) else none) = some (m, e) := h
    by_cases hsp : sp = clean.length
    · rw [if_pos hsp] at h2
      obtain ⟨rfl, rfl⟩ : m0 = m ∧ t = e := by
        constructor <;> · injection h2 with h'; injection h'
      have := post m0 rfl hsp
      simpa using this
    · rw [if_neg hsp] at h2
      exact absurd h2 (by simp)

theorem matchRange_sound {text stext : List Char} {cursor a b : Nat}
    (h : matchRange text cursor stext = some (a, b)) :
    cursor ≤ a ∧ a < b ∧ b ≤ text.length ∧
    (pySlice text a b).filter (fun c => !pyIsSpace c) = cleanOf stext := by
  unfold matchRange at h
  by_cases hc : cleanOf stext = []
  · rw [if_pos hc] at h
    exact absurd h (by simp)
  · rw [if_neg hc] at h
    cases hs : strictMatch text (cleanOf stext) cursor with
    | some me =>
      rcases me with ⟨m, e⟩
      rw [hs] at h
      obtain ⟨rfl, rfl⟩ : m = a ∧ e = b := by
        constructor <;> · injection h with h'; injection h'
      obtain ⟨h1, h2, h3, _, _, _, h7⟩ := strictMatch_sound hs
      exact ⟨h1, h2, h3, h7⟩
    | none =>
      rw [hs] at h
      cases hf : findFrom text stext cursor with
      | none =>
        rw [hf] at h
        exact absurd h (by simp)
      | some p =>
        rw [hf] at h
        obtain ⟨rfl, rfl⟩ : p = a ∧ p + stext.length = b := by
          constructor <;> · injection h with h'; injection h'
        obtain ⟨h1, h2, h3⟩ := findFrom_sound hf
        have hlen : stext ≠ [] := by
          intro hnil
          rw [hnil] at hc
          exact hc rfl
        have hpos : 0 < stext.length := List.length_pos.mpr hlen
        refine ⟨h1, by omega, h2, ?_⟩
        rw [h3]
        rfl

theorem alignStep_matched {text : List Char} {cm : List CharRecord}
    {cursor : Nat} {s : PySentence} {a b : Nat}
    (h : matchRange text cursor s.text = some (a, b)) :
    alignStep text cm cursor s = ({ s with bboxes := pySlice cm a b }, b) := by
  unfold alignStep
  rw [h]

theorem alignStep_unmatched {text : List Char} {cm : List CharRecord}
    {cursor : Nat} {s : PySentence}
    (h : matchRange text cursor s.text = none) :
    alignStep text cm cursor s = ({ s with bboxes := [] }, cursor) := by
  unfold alignStep
  rw [h]

theorem alignStep_cursor_le (text : List Char) (cm : List CharRecord)
    (cursor : Nat) (s : PySentence) :
    cursor ≤ (alignStep text cm cursor s).2 := by
  cases h : matchRange text cursor s.text with
  | some ab =>
    rcases ab with ⟨a, b⟩
    rw [alignStep_matched h]
    have := matchRange_sound h
    omega
  | none =>
    rw [alignStep_unmatched h]

theorem alignStep_id_text (text : List Char) (cm : List CharRecord)
    (cursor : Nat) (s : PySentence) :
    (alignStep text cm cursor s).1.id = s.id ∧
    (alignStep text cm cursor s).1.text = s.text := by
  cases h : matchRange text cursor s.text with
  | some ab =>
    rcases ab with ⟨a, b⟩
    rw [alignStep_matched h]
    exact ⟨rfl, rfl⟩
  | none =>
    rw [alignStep_unmatched h]
    exact ⟨rfl, rfl⟩

theorem alignTrace_cons (text : List Char) (cm : List CharRecord)
    (s : PySentence) (rest : List PySentence) (c : Nat) :
    alignTrace text cm (s :: rest) c =
      alignStep text cm c s ::
        alignTrace text cm rest (alignStep text cm c s).2 := rfl

theorem alignTrace_length (text : List Char) (cm : List CharRecord) :
    ∀ ss c, (alignTrace text cm ss c).length = ss.length := by
  intro ss
  induction ss with
  | nil => intro c; rfl
  | cons s rest ih =>
    intro c
    rw [alignTrace_cons]
    simp [ih]

theorem alignTrace_cursor_le (text : List Char) (cm : List CharRecord) :
    ∀ ss c p, p ∈ alignTrace text cm ss c → c ≤ p.2 := by
  intro ss
  induction ss with
  | nil => intro c p hp; simp [alignTrace] at hp
  | cons s rest ih =>
    intro c p hp
    rw [alignTrace_cons] at hp
    rcases List.mem_cons.mp hp with rfl | hp
    · exact alignStep_cursor_le text cm c s
    · exact le_trans (alignStep_cursor_le text cm c s) (ih _ p hp)

theorem alignTrace_mem (text : List Char) (cm : List CharRecord) :
    ∀ ss c p, p ∈ alignTrace text cm ss c →
      p.1.bboxes = [] ∨
      ∃ a b, c ≤ a ∧ a < b ∧ b ≤ text.length ∧
        p.1.bboxes = pySlice cm a b ∧ p.2 = b ∧
        (pySlice text a b).filter (fun ch => !pyIsSpace ch) = cleanOf p.1.text := by
  intro ss
  induction ss with
  | nil => intro c p hp; simp [alignTrace] at hp
  | cons s rest ih =>
    intro c p hp
    rw [alignTrace_cons] at hp
    rcases List.mem_cons.mp hp with rfl | hp
    · cases hm : matchRange text c s.text with
      | some ab =>
        rcases ab with ⟨a, b⟩
        right
        rw [alignStep_matched hm]
        obtain ⟨h1, h2, h3, h4⟩ := matchRange_sound hm
        exact ⟨a, b, h1, h2, h3, rfl, rfl, h4⟩
      | none =>
        left
        rw [alignStep_unmatched hm]
    · rcases ih _ p hp with hnil | ⟨a, b, hca, hrest⟩
      · exact Or.inl hnil
      · exact Or.inr ⟨a, b,
          le_trans (alignStep_cursor_le text cm c s) hca, hrest⟩

/-- C1: every sentence the aligner returns with a non-empty bounding-box list
has its boxes equal to a contiguous slice `[a, b)` of the coordinate array,
and concatenating the text-buffer characters of that slice and removing all
whitespace yields exactly the sentence's whitespace-removed text, on both the
strict scan path and the literal-substring fallback path. -/
theorem C1_character_accurate_slices (text : List Char) (cm : List CharRecord)
    (ss : List PySentence) :
    ∀ s' ∈ upload_align text cm ss, s'.bboxes ≠ [] →
      ∃ a b, a < b ∧ b ≤ text.length ∧ s'.bboxes = pySlice cm a b ∧
        cleanOf (pySlice text a b) = cleanOf s'.text := by
  intro s' hs' hne
  unfold upload_align at hs'
  rcases List.mem_map.mp hs' with ⟨p, hp, rfl⟩
  rcases alignTrace_mem text cm ss 0 p hp with hnil | ⟨a, b, _, h2, h3, h4, _, h6⟩
  · exact absurd hnil hne
  · exact ⟨a, b, h2, h3, h4, h6⟩

theorem C1_character_accurate_slices_witness :
    ∃ a b, a < b ∧ b ≤ (['a', 'b'] : List Char).length ∧
      (⟨0, ['a', 'b'], [wRecA, wRecB]⟩ : PySentence).bboxes =
        pySlice [wRecA, wRecB] a b ∧
      cleanOf (pySlice ['a', 'b'] a b) =
        cleanOf (⟨0, ['a', 'b'], [wRecA, wRecB]⟩ : PySentence).text :=
  C1_character_accurate_slices ['a', 'b'] [wRecA, wRecB]
    [⟨0, ['a', 'b'], []⟩] ⟨0, ['a', 'b'], [wRecA, wRecB]⟩
    (by decide) (by decide)

theorem scanLoopF_nil_clean (text : List Char) (cursor : Nat) :
    ∀ fuel, scanLoopF text [] fuel cursor 0 none = (none, 0, cursor) := by
  intro fuel
  cases fuel with
  | zero => rfl
  | succ n =>
    rw [scanLoopF.eq_3]
    by_cases h1 : cursor < text.length
    · rw [dif_pos h1, dif_neg (by simp)]
    · rw [dif_neg h1]

theorem strictMatch_nil (text : List Char) (cursor : Nat) :
    strictMatch text [] cursor = none := by
  unfold strictMatch scanLoop
  rw [scanLoopF_nil_clean text cursor (scanFuel text)]

theorem scanFuel_pos (text : List Char) : 0 < scanFuel text := by
  simp only [scanFuel]
  positivity

/-- C4: the strict scan terminates for every buffer and needle: started the
way `upload_pdf` starts it, it exits with either success (`s_ptr` reached the
needle's length) or exhaustion of the buffer; and a mismatch during a partial
match resumes the scan from `match_start + 1` with the candidate lower bound
of the scan position strictly increased. -/
theorem C4_scan_terminates :
    (∀ (text clean : List Char) (cursor : Nat),
      (scanLoop text clean cursor 0 none).2.1 = clean.length ∨
      text.length ≤ (scanLoop text clean cursor 0 none).2.2) ∧
    (∀ (text clean : List Char) (t sp m : Nat)
      (h1 : t < text.length) (h2 : sp < clean.length),
      pyIsSpace text[t] = false → text[t] ≠ clean[sp] →
      scanLoop text clean t sp (some m) = scanLoop text clean (m + 1) 0 none ∧
      scanCand (some m) t < scanCand none (m + 1)) := by
  constructor
  · intro text clean cursor
    have hexit := scanLoop_exit text clean cursor 0 none
    have hle : (scanLoop text clean cursor 0 none).2.1 ≤ clean.length :=
      scanLoopF_sp_le text clean (scanFuel text) cursor 0 none (Nat.zero_le _)
    omega
  · intro text clean t sp m h1 h2 hws heq
    constructor
    · unfold scanLoop
      rcases hsf : scanFuel text with _ | N
      · exact absurd hsf (by have := scanFuel_pos text; omega)
      · rw [scanLoopF.eq_2, dif_pos h1, dif_pos h2,
          if_neg (by rw [hws]; exact Bool.false_ne_true), if_neg heq]
        apply scanLoopF_irrel
        · have := scanMeasure_succ_lt text none (m + 1)
          omega
        · have := scanMeasure_succ_lt text none (m + 1)
          omega
    · simp only [scanCand]
      omega

theorem C4_scan_terminates_witness :
    ((scanLoop ['a', 'b'] ['a', 'c'] 0 0 none).2.1 =
        (['a', 'c'] : List Char).length ∨
      (['a', 'b'] : List Char).length ≤
        (scanLoop ['a', 'b'] ['a', 'c'] 0 0 none).2.2) ∧
    (scanLoop ['a', 'b'] ['a', 'c'] 1 1 (some 0) =
        scanLoop ['a', 'b'] ['a', 'c'] 1 0 none ∧
      scanCand (some 0) 1 < scanCand none (0 + 1)) :=
  ⟨C4_scan_terminates.1 ['a', 'b'] ['a', 'c'] 0,
   C4_scan_terminates.2 ['a', 'b'] ['a', 'c'] 1 1 0
     (by decide) (by decide) (by decide) (by decide)⟩

/-- C10: a sentence aligned by the strict whitespace-skipping scan (not the
fallback) gets the coordinate slice `[m, e)`, and both the first and the last
index of that slice hold non-whitespace characters of the text buffer. -/
theorem C10_strict_slice_ends_nonspace (text stext : List Char)
    (cursor m e : Nat)
    (h : strictMatch text (cleanOf stext) cursor = some (m, e)) :
    matchRange text cursor stext = some (m, e) ∧
    m < e ∧ e ≤ text.length ∧ m < text.length ∧
    pyIsSpace (text.getD m ' ') = false ∧
    pyIsSpace (text.getD (e - 1) ' ') = false := by
  have hcl : cleanOf stext ≠ [] := by
    intro hnil
    rw [hnil] at h
    rw [strictMatch_nil] at h
    exact absurd h (by simp)
  obtain ⟨_, h2, h3, h4, h5, h6, _⟩ := strictMatch_sound h
  refine ⟨?_, h2, h3, h4, h5, h6⟩
  simp only [matchRange]
  rw [if_neg hcl, h]

theorem C10_strict_slice_ends_nonspace_witness :
    matchRange [' ', 'a', ' ', 'b', ' '] 0 ['a', ' ', 'b'] = some (1, 4) ∧
    1 < 4 ∧ 4 ≤ ([' ', 'a', ' ', 'b', ' '] : List Char).length ∧
    1 < ([' ', 'a', ' ', 'b', ' '] : List Char).length ∧
    pyIsSpace (([' ', 'a', ' ', 'b', ' '] : List Char).getD 1 ' ') = false ∧
    pyIsSpace (([' ', 'a', ' ', 'b', ' '] : List Char).getD (4 - 1) ' ') = false :=
  C10_strict_slice_ends_nonspace [' ', 'a', ' ', 'b', ' '] ['a', ' ', 'b'] 0 1 4
    (by decide)

theorem matchRange_none_of_empty {text stext : List Char} {cursor : Nat}
    (h : cleanOf stext = []) : matchRange text cursor stext = none := by
  simp only [matchRange]
  rw [if_pos h]

theorem matchRange_none_of_notfound {text stext : List Char} {cursor : Nat}
    (h1 : strictMatch text (cleanOf stext) cursor = none)
    (h2 : findFrom text stext cursor = none) :
    matchRange text cursor stext = none := by
  simp only [matchRange]
  by_cases hc : cleanOf stext = []
  · rw [if_pos hc]
  · rw [if_neg hc, h1, h2]

theorem alignTrace_get_id_text (text : List Char) (cm : List CharRecord) :
    ∀ (ss : List PySentence) (c i : Nat) (hi : i < ss.length)
      (hi2 : i < (alignTrace text cm ss c).length),
      (alignTrace text cm ss c)[i].1.id = ss[i].id ∧
      (alignTrace text cm ss c)[i].1.text = ss[i].text := by
  intro ss
  induction ss with
  | nil => intro c i hi hi2; simp at hi
  | cons s rest ih =>
    intro c i hi hi2
    cases i with
    | zero =>
      simp only [alignTrace_cons, List.getElem_cons_zero]
      exact alignStep_id_text text cm c s
    | succ j =>
      have hj : j < rest.length := by simpa using hi
      have hj2 : j < (alignTrace text cm rest (alignStep text cm c s).2).length := by
        rw [alignTrace_length]
        exact hj
      simp only [alignTrace_cons, List.getElem_cons_succ]
      exact ih _ j hj hj2

/-- C5: the aligner is total and order-preserving: it produces exactly one
output record per input sentence, keeping ids and texts in order, and a
sentence whose whitespace-removed text is empty, or that neither the strict
scan nor the fallback search can locate, receives an empty bounding-box list
with the cursor left unchanged rather than aborting the batch. -/
theorem C5_total_never_fails :
    (∀ (text : List Char) (cm : List CharRecord) (ss : List PySentence),
      (upload_align text cm ss).length = ss.length) ∧
    (∀ (text : List Char) (cm : List CharRecord) (ss : List PySentence)
      (i : Nat) (hi : i < ss.length) (hi2 : i < (upload_align text cm ss).length),
      (upload_align text cm ss)[i].id = ss[i].id ∧
      (upload_align text cm ss)[i].text = ss[i].text) ∧
    (∀ (text : List Char) (cm : List CharRecord) (cursor : Nat)
      (s : PySentence), cleanOf s.text = [] →
      alignStep text cm cursor s = ({ s with bboxes := [] }, cursor)) ∧
    (∀ (text : List Char) (cm : List CharRecord) (cursor : Nat)
      (s : PySentence),
      strictMatch text (cleanOf s.text) cursor = none →
      findFrom text s.text cursor = none →
      alignStep text cm cursor s = ({ s with bboxes := [] }, cursor)) := by
  refine ⟨?_, ?_, ?_, ?_⟩
  · intro text cm ss
    unfold upload_align
    rw [List.length_map, alignTrace_length]
  · intro text cm ss i hi hi2
    unfold upload_align at hi2 ⊢
    rw [List.length_map] at hi2
    simp only [List.getElem_map]
    exact alignTrace_get_id_text text cm ss 0 i hi hi2
  · intro text cm cursor s h
    exact alignStep_unmatched (matchRange_none_of_empty h)
  · intro text cm cursor s h1 h2
    exact alignStep_unmatched (matchRange_none_of_notfound h1 h2)

theorem C5_total_never_fails_witness :
    (upload_align ['a'] [wRecA] [⟨0, [' '], []⟩]).length =
      ([⟨0, [' '], []⟩] : List PySentence).length ∧
    alignStep ['a'] [wRecA] 0 ⟨0, [' '], []⟩ =
      ({ (⟨0, [' '], []⟩ : PySentence) with bboxes := [] }, 0) ∧
    alignStep ['a', 'b'] [wRecA, wRecB] 0 ⟨0, ['z'], []⟩ =
      ({ (⟨0, ['z'], []⟩ : PySentence) with bboxes := [] }, 0) :=
  ⟨C5_total_never_fails.1 ['a'] [wRecA] [⟨0, [' '], []⟩],
   C5_total_never_fails.2.2.1 ['a'] [wRecA] 0 ⟨0, [' '], []⟩ (by decide),
   C5_total_never_fails.2.2.2 ['a', 'b'] [wRecA, wRecB] 0 ⟨0, ['z'], []⟩
     (by decide) (by decide)⟩

theorem pySlice_nonempty_of_matched {cm : List CharRecord}
    {text : List Char} (hlen : cm.length = text.length) {a b : Nat}
    (hab : a < b) (hb : b ≤ text.length) : pySlice cm a b ≠ [] :=
  pySlice_ne_nil hab (hlen ▸ hb)

/-- C3: across sentences in id order, with `char_map` and `text` of equal
length (the pipeline invariant), any two sentences that both receive
non-empty bounding-box lists occupy coordinate slices in order — the later
slice starts at or after the earlier slice's end — and any sentence that
receives an empty bounding-box list leaves the cursor unchanged. -/
theorem C3_cursor_monotone (text : List Char) (cm : List CharRecord)
    (hlen : cm.length = text.length) :
    (∀ (ss : List PySentence) (c0 i j : Nat), i < j →
      ∀ (hi : i < (alignTrace text cm ss c0).length)
        (hj : j < (alignTrace text cm ss c0).length),
      (alignTrace text cm ss c0)[i].1.bboxes ≠ [] →
      (alignTrace text cm ss c0)[j].1.bboxes ≠ [] →
      ∃ a b a2 b2,
        (alignTrace text cm ss c0)[i].1.bboxes = pySlice cm a b ∧
        (alignTrace text cm ss c0)[j].1.bboxes = pySlice cm a2 b2 ∧
        a < b ∧ a2 < b2 ∧ b ≤ a2) ∧
    (∀ (cursor : Nat) (s : PySentence),
      (alignStep text cm cursor s).1.bboxes = [] →
      (alignStep text cm cursor s).2 = cursor) := by
  constructor
  · intro ss
    induction ss with
    | nil =>
      intro c0 i j hij hi hj h1 h2
      simp [alignTrace] at hj
    | cons s rest ih =>
      intro c0 i j hij hi hj hbi hbj
      cases i with
      | zero =>
        rcases j with _ | j2
        · omega
        · simp only [alignTrace_cons, List.getElem_cons_zero,
            List.getElem_cons_succ] at hbi hbj hj ⊢
          cases hm : matchRange text c0 s.text with
          | none =>
            rw [alignStep_unmatched hm] at hbi
            exact absurd rfl hbi
          | some ab =>
            rcases ab with ⟨a, b⟩
            obtain ⟨_, hab, hble, _⟩ := matchRange_sound hm
            have hcur : (alignStep text cm c0 s).2 = b := by
              rw [alignStep_matched hm]
            have hj2 : j2 <
                (alignTrace text cm rest (alignStep text cm c0 s).2).length := by
              simpa using hj
            have hjmem :
                (alignTrace text cm rest (alignStep text cm c0 s).2)[j2] ∈
                  alignTrace text cm rest (alignStep text cm c0 s).2 :=
              List.getElem_mem _
            rcases alignTrace_mem text cm rest _ _ hjmem with hnil | ⟨a2, b2, hca2, hab2, hb2, hbx2, _, _⟩
            · exact absurd hnil hbj
            · refine ⟨a, b, a2, b2, ?_, hbx2, hab, hab2, ?_⟩
              · rw [alignStep_matched hm]
              · rw [hcur] at hca2
                exact hca2
      | succ i2 =>
        rcases j with _ | j2
        · omega
        · simp only [alignTrace_cons, List.getElem_cons_succ] at hbi hbj hi hj ⊢
          exact ih _ i2 j2 (by omega) (by simpa using hi) (by simpa using hj)
            hbi hbj
  · intro cursor s hb
    cases hm : matchRange text cursor s.text with
    | none => rw [alignStep_unmatched hm]
    | some ab =>
      rcases ab with ⟨a, b⟩
      rw [alignStep_matched hm] at hb
      obtain ⟨_, hab, hble, _⟩ := matchRange_sound hm
      exact absurd hb (pySlice_nonempty_of_matched hlen hab hble)

theorem C3_cursor_monotone_witness :
    (∃ a b a2 b2,
      (alignTrace ['a', 'b'] [wRecA, wRecB]
        [⟨0, ['a'], []⟩, ⟨1, ['b'], []⟩] 0)[0].1.bboxes =
          pySlice [wRecA, wRecB] a b ∧
      (alignTrace ['a', 'b'] [wRecA, wRecB]
        [⟨0, ['a'], []⟩, ⟨1, ['b'], []⟩] 0)[1].1.bboxes =
          pySlice [wRecA, wRecB] a2 b2 ∧
      a < b ∧ a2 < b2 ∧ b ≤ a2) ∧
    (alignStep ['a', 'b'] [wRecA, wRecB] 0 ⟨0, ['z'], []⟩).2 = 0 :=
  ⟨(C3_cursor_monotone ['a', 'b'] [wRecA, wRecB] (by decide)).1
      [⟨0, ['a'], []⟩, ⟨1, ['b'], []⟩] 0 0 1 (by decide) (by decide) (by decide)
      (by decide) (by decide),
   (C3_cursor_monotone ['a', 'b'] [wRecA, wRecB] (by decide)).2
      0 ⟨0, ['z'], []⟩ (by decide)⟩

theorem pyStrip_eq_nil_iff {s : List Char} :
    pyStrip s = [] ↔ ∀ c ∈ s, pyIsSpace c = true := by
  unfold pyStrip
  rw [List.reverse_eq_nil_iff, List.dropWhile_eq_nil_iff]
  constructor
  · intro h c hc
    have hsplit := List.takeWhile_append_dropWhile (p := pyIsSpace) (l := s)
    rw [← hsplit] at hc
    rcases List.mem_append.mp hc with htk | hdr
    · exact List.mem_takeWhile_imp htk
    · exact h c (List.mem_reverse.mpr hdr)
  · intro h c hc
    exact h c ((List.dropWhile_sublist _).subset (List.mem_reverse.mp hc))

theorem spanChars_length (pageNum : Nat) (ph pw : ℚ) :
    ∀ chars, (spanChars pageNum ph pw chars).1.length =
      (spanChars pageNum ph pw chars).2.length := by
  intro chars
  induction chars with
  | nil => rfl
  | cons ch rest ih =>
    cases hc : ch.c with
    | none => simpa [spanChars, hc] using ih
    | some c => simpa [spanChars, hc] using ih

theorem lineContent_length (pageNum : Nat) (ph pw : ℚ) (ln : RawLine) :
    (lineContent pageNum ph pw ln).1.length =
    (lineContent pageNum ph pw ln).2.length := by
  unfold lineContent
  generalize sortSpans ln.spans = spans
  have hgen : ∀ (spans : List RawSpan) (acc : List Char × List CharRecord),
      acc.1.length = acc.2.length →
      (spans.foldl (fun acc sp =>
        let d := spanChars pageNum ph pw sp.chars
        (acc.1 ++ d.1, acc.2 ++ d.2)) acc).1.length =
      (spans.foldl (fun acc sp =>
        let d := spanChars pageNum ph pw sp.chars
        (acc.1 ++ d.1, acc.2 ++ d.2)) acc).2.length := by
    intro spans
    induction spans with
    | nil => intro acc h; exact h
    | cons sp rest ih =>
      intro acc h
      apply ih
      simp only [List.length_append, h, spanChars_length]
  exact hgen spans ([], []) rfl

theorem appendLine_length {acc : List Char × List CharRecord}
    {lt : List Char} {lc : List CharRecord}
    (hacc : acc.1.length = acc.2.length) (hl : lt.length = lc.length) :
    (appendLine acc lt lc).1.length = (appendLine acc lt lc).2.length := by
  unfold appendLine
  by_cases hnil : lt = []
  · rw [if_pos hnil]; exact hacc
  · rw [if_neg hnil]
    by_cases hend : endsWithSNT lt
    · rw [if_pos hend]
      simp [hacc, hl]
    · rw [if_neg hend]
      have hlc : lc ≠ [] := by
        intro h
        rw [h] at hl
        exact hnil (List.length_eq_zero.mp hl)
      cases hlast : lc.getLast? with
      | none => exact absurd (List.getLast?_eq_none_iff.mp hlast) hlc
      | some last => simp [hacc, hl]

theorem blockContent_length (pageNum : Nat) (ph pw : ℚ) (b : RawBlock) :
    (blockContent pageNum ph pw b).1.length =
    (blockContent pageNum ph pw b).2.length := by
  unfold blockContent
  have hgen : ∀ (lns : List RawLine) (acc : List Char × List CharRecord),
      acc.1.length = acc.2.length →
      (lns.foldl (fun acc ln =>
        let d := lineContent pageNum ph pw ln
        appendLine acc d.1 d.2) acc).1.length =
      (lns.foldl (fun acc ln =>
        let d := lineContent pageNum ph pw ln
        appendLine acc d.1 d.2) acc).2.length := by
    intro lns
    induction lns with
    | nil => intro acc h; exact h
    | cons ln rest ih =>
      intro acc h
      exact ih _ (appendLine_length h (lineContent_length pageNum ph pw ln))
  exact hgen b.lines ([], []) rfl

theorem trimBlockF_length :
    ∀ (fuel : Nat) (bt : List Char) (bc : List CharRecord),
      bt.length = bc.length →
      (trimBlockF fuel bt bc).1.length = (trimBlockF fuel bt bc).2.length := by
  intro fuel
  induction fuel with
  | zero => intro bt bc h; exact h
  | succ fuel ih =>
    intro bt bc h
    simp only [trimBlockF]
    split
    · split
      · apply ih
        simp [List.length_dropLast, h]
      · exact h
    · exact h

theorem trimBlock_length {bt : List Char} {bc : List CharRecord}
    (h : bt.length = bc.length) :
    (trimBlock bt bc).1.length = (trimBlock bt bc).2.length :=
  trimBlockF_length bt.length bt bc h

theorem dropLast_strip_ne_nil {bt : List Char} {c : Char}
    (hlast : bt.getLast? = some c) (hws : pyIsSpace c = true)
    (h : pyStrip bt ≠ []) : pyStrip bt.dropLast ≠ [] := by
  have hbt : bt ≠ [] := by
    intro hnil
    rw [hnil] at hlast
    simp at hlast
  intro hnil
  apply h
  rw [pyStrip_eq_nil_iff] at hnil ⊢
  intro d hd
  have hsplit : bt.dropLast ++ [bt.getLast hbt] = bt :=
    List.dropLast_append_getLast hbt
  have hc : bt.getLast hbt = c := by
    have := List.getLast?_eq_getLast bt hbt
    rw [this] at hlast
    injection hlast
  rw [← hsplit] at hd
  rcases List.mem_append.mp hd with hdl | hdc
  · exact hnil d hdl
  · rw [List.mem_singleton.mp hdc, hc]
    exact hws

theorem trimBlockF_fst_ne_nil :
    ∀ (fuel : Nat) (bt : List Char) (bc : List CharRecord),
      pyStrip bt ≠ [] → (trimBlockF fuel bt bc).1 ≠ [] := by
  intro fuel
  induction fuel with
  | zero =>
    intro bt bc h hnil
    have hb : bt = [] := hnil
    rw [hb] at h
    exact h rfl
  | succ fuel ih =>
    intro bt bc h
    have hbt : bt ≠ [] := by
      intro hnil
      rw [hnil] at h
      exact h rfl
    simp only [trimBlockF]
    split
    · next c heq =>
      by_cases hws : pyIsSpace c
      · rw [if_pos hws]
        exact ih _ _ (dropLast_strip_ne_nil heq hws h)
      · rw [if_neg hws]
        exact hbt
    · exact hbt

theorem emitBlock_length {acc : List Char × List CharRecord}
    {isHeading : Bool} {bt : List Char} {bc : List CharRecord}
    (hacc : acc.1.length = acc.2.length) (h : bt.length = bc.length) :
    (emitBlock acc isHeading bt bc).1.length =
    (emitBlock acc isHeading bt bc).2.length := by
  unfold emitBlock
  by_cases hstrip : pyStrip bt = []
  · rw [if_pos hstrip]; exact hacc
  · rw [if_neg hstrip]
    dsimp only
    have htr := trimBlock_length h
    have htne : (trimBlock bt bc).1 ≠ [] := trimBlockF_fst_ne_nil _ _ _ hstrip
    have hcne : (trimBlock bt bc).2 ≠ [] := by
      intro hnil
      rw [hnil] at htr
      exact htne (List.length_eq_zero.mp htr)
    cases hlast : (trimBlock bt bc).2.getLast? with
    | none => exact absurd (List.getLast?_eq_none_iff.mp hlast) hcne
    | some last =>
      simp [separatorFor, htr, hacc]

theorem processPage_length (pageNum : Nat) (pg : RawPage)
    {acc : List Char × List CharRecord}
    (hacc : acc.1.length = acc.2.length) :
    (processPage pageNum acc pg).1.length =
    (processPage pageNum acc pg).2.length := by
  have hgen : ∀ (thr : ℚ) (bs : List RawBlock)
      (acc : List Char × List CharRecord), acc.1.length = acc.2.length →
      (bs.foldl (fun acc b =>
        if keepBlock pg b then
          let d := blockContent pageNum pg.height pg.width b
          emitBlock acc (blockIsHeading thr b) d.1 d.2
        else acc) acc).1.length =
      (bs.foldl (fun acc b =>
        if keepBlock pg b then
          let d := blockContent pageNum pg.height pg.width b
          emitBlock acc (blockIsHeading thr b) d.1 d.2
        else acc) acc).2.length := by
    intro thr bs
    induction bs with
    | nil => intro acc h; exact h
    | cons b rest ih =>
      intro acc h
      simp only [List.foldl_cons]
      apply ih
      by_cases hk : keepBlock pg b
      · rw [if_pos hk]
        exact emitBlock_length h
          (blockContent_length pageNum pg.height pg.width b)
      · rw [if_neg hk]
        exact h
  exact hgen _ _ acc hacc

/-- C2: the text buffer and the coordinate array stay in lockstep through
every mutation — glyph appends, synthetic end-of-line spaces, trailing-space
trimming and paragraph separators all extend or shrink both arrays together —
so `len(full_text) == len(char_map)` holds for the pair returned by
`extract_text_with_coordinates` on every input. -/
theorem C2_parallel_arrays (doc : List RawPage) :
    (extract_text_with_coordinates doc).1.length =
    (extract_text_with_coordinates doc).2.length := by
  unfold extract_text_with_coordinates
  generalize doc.enum = pages
  have hgen : ∀ (pages : List (Nat × RawPage))
      (acc : List Char × List CharRecord), acc.1.length = acc.2.length →
      (pages.foldl (fun acc p => processPage p.1 acc p.2) acc).1.length =
      (pages.foldl (fun acc p => processPage p.1 acc p.2) acc).2.length := by
    intro pages
    induction pages with
    | nil => intro acc h; exact h
    | cons p rest ih =>
      intro acc h
      exact ih _ (processPage_length p.1 p.2 h)
  exact hgen pages ([], []) rfl

/-- C6: every emitted (non-empty-after-trim) block is followed by exactly the
two characters of a double newline in the text buffer and exactly two
synthesized-newline records in the coordinate array — copying the last
record's page, x, y and height, with width zero — whatever block type or
heading flag was computed: the heading/font-size computation never changes
the emitted separator. -/
theorem C6_two_newline_separator (acc : List Char × List CharRecord)
    (isHeading : Bool) (bt : List Char) (bc : List CharRecord)
    (hlen : bt.length = bc.length) (hstrip : pyStrip bt ≠ []) :
    ∃ last, (trimBlock bt bc).2.getLast? = some last ∧
      emitBlock acc isHeading bt bc =
        (acc.1 ++ (trimBlock bt bc).1 ++ ['\n', '\n'],
         acc.2 ++ (trimBlock bt bc).2 ++
           [newlineRecordOf last, newlineRecordOf last]) ∧
      (newlineRecordOf last).page = last.page ∧
      (newlineRecordOf last).x = last.x ∧
      (newlineRecordOf last).y = last.y ∧
      (newlineRecordOf last).height = last.height ∧
      (newlineRecordOf last).width = 0 ∧
      (newlineRecordOf last).flag = CharFlag.newline ∧
      (∀ b : Bool, separatorFor b = ['\n', '\n']) := by
  have htr := trimBlock_length hlen
  have htne : (trimBlock bt bc).1 ≠ [] := trimBlockF_fst_ne_nil _ _ _ hstrip
  have hcne : (trimBlock bt bc).2 ≠ [] := by
    intro hnil
    rw [hnil] at htr
    exact htne (List.length_eq_zero.mp htr)
  cases hlast : (trimBlock bt bc).2.getLast? with
  | none => exact absurd (List.getLast?_eq_none_iff.mp hlast) hcne
  | some last =>
    refine ⟨last, rfl, ?_, rfl, rfl, rfl, rfl, rfl, rfl, fun b => rfl⟩
    unfold emitBlock
    rw [if_neg hstrip]
    dsimp only
    rw [hlast]
    rfl

theorem C6_two_newline_separator_witness :
    ∃ last,
      (trimBlock ['a', ' '] [wRecA, wRecB]).2.getLast? = some last ∧
      emitBlock ([], []) false ['a', ' '] [wRecA, wRecB] =
        (([] : List Char) ++ (trimBlock ['a', ' '] [wRecA, wRecB]).1 ++
           ['\n', '\n'],
         ([] : List CharRecord) ++ (trimBlock ['a', ' '] [wRecA, wRecB]).2 ++
           [newlineRecordOf last, newlineRecordOf last]) ∧
      (newlineRecordOf last).page = last.page ∧
      (newlineRecordOf last).x = last.x ∧
      (newlineRecordOf last).y = last.y ∧
      (newlineRecordOf last).height = last.height ∧
      (newlineRecordOf last).width = 0 ∧
      (newlineRecordOf last).flag = CharFlag.newline ∧
      (∀ b : Bool, separatorFor b = ['\n', '\n']) :=
  C6_two_newline_separator ([], []) false ['a', ' '] [wRecA, wRecB]
    (by decide) (by decide)

/-- C8 counterexample: a line whose text ends in the whitespace character
`'\r'` (carriage return is whitespace, but not one of `" "`, `"\n"`, `"\t"`)
still receives a synthetic space — the claimed "iff the line's text does not
already end in whitespace" fails on it. -/
theorem C8_whitespace_counterexample :
    pyIsSpace '\r' = true ∧
    (appendLine ([], []) ['a', '\r'] [wRecA, wRecB]).1 = ['a', '\r', ' '] ∧
    (appendLine ([], []) ['a', '\r'] [wRecA, wRecB]).2.length = 3 := by decide

/-- C8 amended: for every extracted line with non-empty text, exactly one
synthetic space character is appended if and only if the line's text does not
end in one of the three characters `" "`, `"\n"`, `"\t"` (the tuple Python's
`endswith` is given — not every whitespace character), together with one
synthesized-space record copying the last glyph's page and height and placed
immediately to its right at `x = last.x + last.width`. -/
theorem C8_line_space_endswith (acc : List Char × List CharRecord)
    (lt : List Char) (lc : List CharRecord)
    (hne : lt ≠ []) (hlen : lt.length = lc.length) :
    (endsWithSNT lt = true →
      appendLine acc lt lc = (acc.1 ++ lt, acc.2 ++ lc)) ∧
    (endsWithSNT lt = false →
      ∃ last, lc.getLast? = some last ∧
        appendLine acc lt lc =
          (acc.1 ++ lt ++ [' '], acc.2 ++ lc ++ [spaceRecordOf last]) ∧
        (spaceRecordOf last).page = last.page ∧
        (spaceRecordOf last).height = last.height ∧
        (spaceRecordOf last).x = last.x + last.width ∧
        (spaceRecordOf last).flag = CharFlag.space) := by
  have hlc : lc ≠ [] := by
    intro h
    rw [h] at hlen
    exact hne (List.length_eq_zero.mp hlen)
  constructor
  · intro hend
    unfold appendLine
    rw [if_neg hne, if_pos hend]
  · intro hend
    cases hlast : lc.getLast? with
    | none => exact absurd (List.getLast?_eq_none_iff.mp hlast) hlc
    | some last =>
      refine ⟨last, rfl, ?_, rfl, rfl, rfl, rfl⟩
      unfold appendLine
      rw [if_neg hne, if_neg (by rw [hend]; exact Bool.false_ne_true)]
      rw [hlast]

theorem C8_line_space_endswith_witness :
    ∃ last, ([wRecA] : List CharRecord).getLast? = some last ∧
      appendLine ([], []) ['a'] [wRecA] =
        (([] : List Char) ++ ['a'] ++ [' '],
         ([] : List CharRecord) ++ [wRecA] ++ [spaceRecordOf last]) ∧
      (spaceRecordOf last).page = last.page ∧
      (spaceRecordOf last).height = last.height ∧
      (spaceRecordOf last).x = last.x + last.width ∧
      (spaceRecordOf last).flag = CharFlag.space :=
  (C8_line_space_endswith ([], []) ['a'] [wRecA]
    (by decide) (by decide)).2 (by decide)

/-- C9: a block is discarded by the per-page filter exactly when its vertical
extent lies entirely above the 5% header line or entirely below the 95%
footer line, or its bounding-box center point falls inside some table or some
image rectangle; and the table/image test being center-point containment, a
block that overlaps a table or image but whose center is inside none of them
(and which is not in the margins) is kept. -/
theorem C9_block_filter (pg : RawPage) (b : RawBlock) :
    (keepBlock pg b = false ↔
      (b.bbox.y1 < pg.height * (5 / 100 : ℚ) ∨
       b.bbox.y0 > pg.height * (95 / 100 : ℚ) ∨
       (∃ t ∈ pg.tables,
         t.x0 ≤ (b.bbox.x0 + b.bbox.x1) / 2 ∧
         (b.bbox.x0 + b.bbox.x1) / 2 ≤ t.x1 ∧
         t.y0 ≤ (b.bbox.y0 + b.bbox.y1) / 2 ∧
         (b.bbox.y0 + b.bbox.y1) / 2 ≤ t.y1) ∨
       (∃ i ∈ pg.images,
         i.x0 ≤ (b.bbox.x0 + b.bbox.x1) / 2 ∧
         (b.bbox.x0 + b.bbox.x1) / 2 ≤ i.x1 ∧
         i.y0 ≤ (b.bbox.y0 + b.bbox.y1) / 2 ∧
         (b.bbox.y0 + b.bbox.y1) / 2 ≤ i.y1))) ∧
    (∀ r : PRect, (r ∈ pg.tables ∨ r ∈ pg.images) →
      rectOverlap r b.bbox = true →
      ¬(b.bbox.y1 < pg.height * (5 / 100 : ℚ)) →
      ¬(b.bbox.y0 > pg.height * (95 / 100 : ℚ)) →
      (∀ t ∈ pg.tables,
        pointInRect ((b.bbox.x0 + b.bbox.x1) / 2)
          ((b.bbox.y0 + b.bbox.y1) / 2) t = false) →
      (∀ i ∈ pg.images,
        pointInRect ((b.bbox.x0 + b.bbox.x1) / 2)
          ((b.bbox.y0 + b.bbox.y1) / 2) i = false) →
      keepBlock pg b = true) := by
  constructor
  · unfold keepBlock pointInRect
    simp only [Bool.not_eq_false', Bool.or_eq_true, List.any_eq_true,
      decide_eq_true_eq, or_assoc]
  · intro r hr hov hh hf htab him
    unfold keepBlock
    simp only [Bool.not_eq_true', Bool.or_eq_false_iff, decide_eq_false_iff_not,
      List.any_eq_false]
    refine ⟨⟨⟨hh, hf⟩, ?_⟩, ?_⟩
    · intro t ht
      have := htab t ht
      simp [this]
    · intro i hi
      have := him i hi
      simp [this]

theorem C9_block_filter_witness :
    rectOverlap ⟨0, 0, 10, 10⟩ wBlock.bbox = true ∧
    keepBlock wPage wBlock = true :=
  ⟨by decide,
   (C9_block_filter wPage wBlock).2 ⟨0, 0, 10, 10⟩ (Or.inl (by decide))
     (by decide) (by norm_num [wPage, wBlock]) (by norm_num [wPage, wBlock])
     (by
       intro t ht
       simp only [wPage, List.mem_singleton] at ht
       subst ht
       norm_num [pointInRect, wBlock])
     (by
       intro i hi
       simp only [wPage, List.not_mem_nil] at hi)⟩

theorem pyStrip_eq_rdropWhile (s : List Char) :
    pyStrip s = List.rdropWhile pyIsSpace (s.dropWhile pyIsSpace) := rfl

theorem pyStrip_idem (s : List Char) : pyStrip (pyStrip s) = pyStrip s := by
  rw [pyStrip_eq_rdropWhile, pyStrip_eq_rdropWhile]
  set u := s.dropWhile pyIsSpace with hu
  have hdu : u.dropWhile pyIsSpace = u := by
    rw [hu]
    exact List.dropWhile_idempotent _ _
  have hpre : List.rdropWhile pyIsSpace u <+: u := List.rdropWhile_prefix _ _
  have hdrw : (List.rdropWhile pyIsSpace u).dropWhile pyIsSpace =
      List.rdropWhile pyIsSpace u := by
    rw [List.dropWhile_eq_self_iff]
    intro hl
    have hul : 0 < u.length := by
      have := hpre.length_le
      omega
    have hget := (List.dropWhile_eq_self_iff).mp hdu hul
    have heq : (List.rdropWhile pyIsSpace u).get ⟨0, hl⟩ = u.get ⟨0, hul⟩ := by
      simp only [List.get_eq_getElem]
      exact hpre.getElem hl
    rw [heq]
    exact hget
  rw [hdrw, List.rdropWhile_idempotent _ _]

theorem numberFrom_append (l1 l2 : List (List Char)) :
    ∀ n, numberFrom n (l1 ++ l2) =
      numberFrom n l1 ++ numberFrom (n + l1.length) l2 := by
  induction l1 with
  | nil => intro n; simp [numberFrom]
  | cons s rest ih =>
    intro n
    have h2 : n + 1 + rest.length = n + (rest.length + 1) := by omega
    calc numberFrom n (s :: rest ++ l2)
        = ⟨n, s, []⟩ :: numberFrom (n + 1) (rest ++ l2) := rfl
      _ = ⟨n, s, []⟩ ::
            (numberFrom (n + 1) rest ++ numberFrom (n + 1 + rest.length) l2) := by
          rw [ih (n + 1)]
      _ = numberFrom n (s :: rest) ++
            numberFrom (n + (s :: rest).length) l2 := by
          simp [numberFrom, h2]

theorem numberFrom_map_id (l : List (List Char)) :
    ∀ n, (numberFrom n l).map PySentence.id = List.range' n l.length := by
  induction l with
  | nil => intro n; simp [numberFrom]
  | cons s rest ih =>
    intro n
    simp only [numberFrom, List.map_cons, List.length_cons, List.range'_succ,
      ih (n + 1)]

theorem numberFrom_length (l : List (List Char)) :
    ∀ n, (numberFrom n l).length = l.length := by
  induction l with
  | nil => intro n; rfl
  | cons s rest ih =>
    intro n
    simp [numberFrom, ih]

theorem numberFrom_mem {l : List (List Char)} :
    ∀ {n : Nat} {s : PySentence}, s ∈ numberFrom n l →
      s.text ∈ l ∧ s.bboxes = [] := by
  induction l with
  | nil => intro n s h; simp [numberFrom] at h
  | cons c rest ih =>
    intro n s h
    simp only [numberFrom, List.mem_cons] at h
    rcases h with rfl | h
    · exact ⟨List.mem_cons_self _ _, rfl⟩
    · obtain ⟨h1, h2⟩ := ih h
      exact ⟨List.mem_cons_of_mem _ h1, h2⟩

theorem numberSents_spec (sents : List (List Char)) :
    ∀ (acc : List PySentence) (n : Nat),
      numberSents (acc, n) sents =
        (acc ++ numberFrom n ((sents.map pyStrip).filter (fun s => decide (s ≠ []))),
         n + ((sents.map pyStrip).filter (fun s => decide (s ≠ []))).length) := by
  induction sents with
  | nil => intro acc n; simp [numberSents, numberFrom]
  | cons s rest ih =>
    intro acc n
    have hstep : numberSents (acc, n) (s :: rest) =
        numberSents (if pyStrip s = [] then (acc, n)
          else (acc ++ [⟨n, pyStrip s, []⟩], n + 1)) rest := by
      unfold numberSents
      rw [List.foldl_cons]
    by_cases hs : pyStrip s = []
    · rw [hstep, if_pos hs, ih]
      simp [hs]
    · rw [hstep, if_neg hs, ih]
      simp only [List.map_cons, List.filter_cons]
      rw [if_pos (by simp [hs])]
      simp only [numberFrom, List.length_cons, Prod.mk.injEq]
      constructor
      · rw [List.append_assoc]
        rfl
      · omega

theorem split_fold_spec (sbd : List Char → List (List Char))
    (chunks : List (List Char)) :
    ∀ (acc : List PySentence) (n : Nat),
      chunks.foldl
        (fun acc chunk =>
          let chunk := pyStrip chunk
          if chunk = [] then acc else numberSents acc (sbd chunk)) (acc, n) =
      (acc ++ numberFrom n (sentsOfChunks sbd chunks),
       n + (sentsOfChunks sbd chunks).length) := by
  induction chunks with
  | nil =>
    intro acc n
    simp [sentsOfChunks, numberFrom]
  | cons ch rest ih =>
    intro acc n
    rw [List.foldl_cons]
    by_cases hs : pyStrip ch = []
    · have hg : (let chunk := pyStrip ch
          if chunk = [] then (acc, n) else numberSents (acc, n) (sbd chunk)) =
          (acc, n) := by
        simp only
        rw [if_pos hs]
      rw [hg, ih]
      have hsc : sentsOfChunks sbd (ch :: rest) = sentsOfChunks sbd rest := by
        simp only [sentsOfChunks, List.map_cons, List.filter_cons]
        rw [if_neg (by simp [hs])]
      rw [hsc]
    · have hg : (let chunk := pyStrip ch
          if chunk = [] then (acc, n) else numberSents (acc, n) (sbd chunk)) =
          numberSents (acc, n) (sbd (pyStrip ch)) := by
        simp only
        rw [if_neg hs]
      rw [hg, numberSents_spec, ih]
      have hsc : sentsOfChunks sbd (ch :: rest) =
          (((sbd (pyStrip ch)).map pyStrip).filter (fun s => decide (s ≠ []))) ++
            sentsOfChunks sbd rest := by
        simp only [sentsOfChunks, List.map_cons, List.filter_cons]
        rw [if_pos (by simp [hs])]
        rw [List.flatMap_cons]
      rw [hsc, numberFrom_append, List.append_assoc, List.length_append]
      simp only [Prod.mk.injEq, true_and]
      omega

theorem split_into_sentences_spec (sbd : List Char → List (List Char))
    (text : List Char) :
    split_into_sentences sbd text =
      numberFrom 0 (sentsOfChunks sbd (splitNN text)) := by
  unfold split_into_sentences
  rw [split_fold_spec]
  simp

/-- C7: the segmenter splits the assembled text on the literal two-character
separator, trims each chunk and discards empty chunks, segments each
surviving chunk with the external sentence-boundary capability, and assigns a
single sequential id counter across the whole document: the output is the
sequential numbering, from 0, of the trimmed non-empty sentences of the
trimmed non-empty chunks, its ids are exactly `0 .. N-1` in list order, and
every output sentence carries trimmed, non-empty text and no position data. -/
theorem C7_segmenter_sequential_ids (sbd : List Char → List (List Char))
    (text : List Char) :
    split_into_sentences sbd text =
      numberFrom 0 (sentsOfChunks sbd (splitNN text)) ∧
    (split_into_sentences sbd text).map PySentence.id =
      List.range (split_into_sentences sbd text).length ∧
    (∀ s ∈ split_into_sentences sbd text,
      s.text ≠ [] ∧ pyStrip s.text = s.text ∧ s.bboxes = []) := by
  have hspec := split_into_sentences_spec sbd text
  refine ⟨hspec, ?_, ?_⟩
  · rw [hspec, numberFrom_map_id, numberFrom_length, List.range_eq_range']
  · intro s hs
    rw [hspec] at hs
    obtain ⟨ht, hb⟩ := numberFrom_mem hs
    simp only [sentsOfChunks, List.mem_flatMap, List.mem_filter,
      List.mem_map] at ht
    obtain ⟨ch, _, ⟨⟨t, _, heq⟩, hne⟩⟩ := ht
    refine ⟨by simpa using hne, ?_, hb⟩
    rw [← heq]
    exact pyStrip_idem t

theorem C7_segmenter_sequential_ids_witness :
    split_into_sentences (fun c => [c]) ['a', 'b', '\n', '\n', 'c', 'd'] =
      numberFrom 0 (sentsOfChunks (fun c => [c])
        (splitNN ['a', 'b', '\n', '\n', 'c', 'd'])) ∧
    (split_into_sentences (fun c => [c])
        ['a', 'b', '\n', '\n', 'c', 'd']).map PySentence.id =
      List.range (split_into_sentences (fun c => [c])
        ['a', 'b', '\n', '\n', 'c', 'd']).length ∧
    ((⟨0, ['a', 'b'], []⟩ : PySentence).text ≠ [] ∧
      pyStrip (⟨0, ['a', 'b'], []⟩ : PySentence).text =
        (⟨0, ['a', 'b'], []⟩ : PySentence).text ∧
      (⟨0, ['a', 'b'], []⟩ : PySentence).bboxes = []) :=
  ⟨(C7_segmenter_sequential_ids (fun c => [c])
      ['a', 'b', '\n', '\n', 'c', 'd']).1,
   (C7_segmenter_sequential_ids (fun c => [c])
      ['a', 'b', '\n', '\n', 'c', 'd']).2.1,
   (C7_segmenter_sequential_ids (fun c => [c])
      ['a', 'b', '\n', '\n', 'c', 'd']).2.2 ⟨0, ['a', 'b'], []⟩ (by decide)⟩
